import Mathlib

/-!
# Verification of the `LoopSim` ring-road simulation core (`src/python/loopsim.py`)

This file gives a shallow embedding of the parts of `LoopSim` that the
specification's testable claims are about:

* the ring neighbor query `LoopSim.getCars` (loopsim.py:165-189),
* the position mapper `LoopSim._getEdge` / `LoopSim._getX` (loopsim.py:85-93)
  together with the `edgestarts` table (loopsim.py:45-49),
* the type-parameter application loop of `LoopSim._addTypes` (loopsim.py:95-108)
  and the `KNOWN_PARAMS` table (loopsim.py:19-27),
* the vehicle placement loop of `LoopSim._addCars` (loopsim.py:115-138).

Numbers.  The ring positions handled by `getCars` are embedded as integers
`ℤ`: the only arithmetic `getCars` performs is subtraction and Python's `%`,
and on integer operands with a positive modulus Python's `%` coincides
exactly with `Int.emod` (result in `[0, L)`).  The position mapper computes
`edgelen = length/4.` with true (float) division, so its positions are
embedded as rationals `ℚ`.  The placement arithmetic of `_addCars`
(`self.length * i / self.numCars` on Python 2 ints) is floor division on `ℕ`.
-/

/-! ## The neighbor query `getCars` (loopsim.py:165-189) -/

/-- One entry of `self.allCars`, built per vehicle each tick in `LoopSim._run`
(loopsim.py:144-153): the dict with keys `id`, `type`, `edge`, `lane`, `x`,
`v`.  `getCars` reads only `x` and `lane`. -/
structure Car where
  id : String
  type : String
  edge : String
  lane : ℕ
  x : ℤ
  v : ℤ
deriving DecidableEq, Repr

/-- Placeholder for out-of-range list indexing; never reached by `getCars`
for a focal index below `allCars.length`, since both scans generate only
in-range indices (mirroring Python's `range`). -/
def dummyCar : Car := ⟨"", "", "", 0, 0, 0⟩

/-- `self.allCars[i]` (in-range for every index the scans generate). -/
def carAt (cars : List Car) (i : ℕ) : Car := cars.getD i dummyCar

/-- The state of a `LoopSim` object that `getCars` reads: `self.length` and
`self.allCars`.  `self.numCars` always equals `len(self.allCars)` (`_run`
appends one entry per car name, loopsim.py:143-153), so it is embedded as
`allCars.length`. -/
structure Sim where
  length : ℤ
  allCars : List Car
deriving Repr

/-- The backward circular distance `(x - c["x"]) % self.length` of
loopsim.py:173. -/
def backDist (L x cx : ℤ) : ℤ := (x - cx) % L

/-- The forward circular distance `(c["x"] - x) % self.length` of
loopsim.py:183. -/
def fwdDist (L x cx : ℤ) : ℤ := (cx - x) % L

/-- The lane filter of loopsim.py:176/186: `lane is None or c["lane"] == lane`. -/
def laneOk (lane : Option ℕ) (c : Car) : Bool :=
  match lane with
  | none => true
  | some l => c.lane == l

/-- Backward break test, distance clause (loopsim.py:173):
`dxBack is not None and (x - c["x"]) % self.length > dxBack`. -/
def tooFarBack (L x : ℤ) (dxBack : Option ℤ) (c : Car) : Bool :=
  match dxBack with
  | none => false
  | some d => decide (d < backDist L x c.x)

/-- Forward break test, distance clause (loopsim.py:183):
`dxForward is not None and (c["x"] - x) % self.length > dxForward`. -/
def tooFarFwd (L x : ℤ) (dxForward : Option ℤ) (c : Car) : Bool :=
  match dxForward with
  | none => false
  | some d => decide (d < fwdDist L x c.x)

/-- Count-budget break test: `numBack is not None and len(ret) >= numBack`
(loopsim.py:174), applied by the forward loop to `len(ret) - cnt`
(loopsim.py:184). -/
def quotaFull (num : Option ℕ) (n : ℕ) : Bool :=
  match num with
  | none => false
  | some k => decide (k ≤ n)

/-- The backward loop of `getCars` (loopsim.py:171-177) over an explicit list
of candidate indices: at each index the loop `break`s when the distance or
count clause fires, otherwise prepends (`ret.insert(0, c)`) the candidate
when it passes the lane filter. -/
def backScan (L : ℤ) (cars : List Car) (x : ℤ) (dxBack : Option ℤ)
    (numBack : Option ℕ) (lane : Option ℕ) : List ℕ → List Car → List Car
  | [], ret => ret
  | i :: is, ret =>
    let c := carAt cars i
    if tooFarBack L x dxBack c || quotaFull numBack ret.length then ret
    else backScan L cars x dxBack numBack lane is
      (if laneOk lane c then c :: ret else ret)

/-- The forward loop of `getCars` (loopsim.py:181-187): `cnt = len(ret)` is
frozen before the loop (loopsim.py:179); at each index the loop `break`s when
the distance clause fires or `len(ret) - cnt` reaches the forward quota,
otherwise appends (`ret.append(c)`) the candidate when it passes the lane
filter. -/
def fwdScan (L : ℤ) (cars : List Car) (x : ℤ) (dxForward : Option ℤ)
    (numForward : Option ℕ) (lane : Option ℕ) (cnt : ℕ) :
    List ℕ → List Car → List Car
  | [], ret => ret
  | i :: is, ret =>
    let c := carAt cars i
    if tooFarFwd L x dxForward c || quotaFull numForward (ret.length - cnt) then
      ret
    else fwdScan L cars x dxForward numForward lane cnt is
      (if laneOk lane c then ret ++ [c] else ret)

/-- The backward index sequence of loopsim.py:171:
`range(idx-1, -1, -1) + range(self.numCars-1, idx, -1)`, i.e.
`[idx-1, …, 0] ++ [N-1, …, idx+1]`. -/
def backIdxs (idx n : ℕ) : List ℕ :=
  (List.range idx).reverse ++ (List.range' (idx + 1) (n - idx - 1)).reverse

/-- The forward index sequence of loopsim.py:181:
`range(idx+1, self.numCars) + range(0, idx)`, i.e.
`[idx+1, …, N-1] ++ [0, …, idx-1]`. -/
def fwdIdxs (idx n : ℕ) : List ℕ :=
  List.range' (idx + 1) (n - idx - 1) ++ List.range idx

/-- `LoopSim.getCars` (loopsim.py:165-189): scan backward from `idx`
collecting matches at the front of `ret`, then scan forward appending
matches, with per-direction count budgets (`numBack`, `numForward`),
circular-distance budgets (`dxBack`, `dxForward`) and an optional lane
filter.  All optional arguments default to `None` in the source; callers
pass `none` explicitly here. -/
def getCars (sim : Sim) (idx : ℕ) (numBack numForward : Option ℕ)
    (dxBack dxForward : Option ℤ) (lane : Option ℕ) : List Car :=
  let x := (carAt sim.allCars idx).x
  let n := sim.allCars.length
  let ret := backScan sim.length sim.allCars x dxBack numBack lane
    (backIdxs idx n) []
  let cnt := ret.length
  fwdScan sim.length sim.allCars x dxForward numForward lane cnt
    (fwdIdxs idx n) ret

/-! ## The position mapper (loopsim.py:45-49, 85-93) -/

/-- The `self.edgestarts` table (loopsim.py:45-49): `edgelen = length/4.`
and starts `{"bottom": 0, "right": edgelen, "top": 2*edgelen,
"left": 3*edgelen}`.  The table is a Python 2 dict and `_getEdge` walks it
with `iteritems()`, so the entries are listed here in the dict's iteration
order, not in the written insertion order.  For these four string keys in an
8-slot CPython 2.7 table (hash randomization off, both 64- and 32-bit string
hashes, open-addressing probe sequence) the slots come out as
top → 2, right → 3, left → 5, bottom → 7, so iteration yields
`[top, right, left, bottom]`.  Crucially, "bottom" (start 0) is iterated
last. -/
def edgestarts (L : ℚ) : List (String × ℚ) :=
  [("top", 2 * (L / 4)), ("right", L / 4), ("left", 3 * (L / 4)), ("bottom", 0)]

/-- `LoopSim._getEdge` (loopsim.py:85-90): iterate over the edge-start table,
re-binding `starte, startx = e, x - s` at every entry with `x >= s`; the
returned pair comes from the last such entry.  Since "bottom" (start 0) is
the last entry iterated and matches every `x ≥ 0`, the function returns
`("bottom", x)` for every `x ≥ 0` — including `x ≥ L`: there is no
validation.  If no entry satisfies `x >= s` (only possible for `x < 0`) the
Python function raises `UnboundLocalError`, embedded as `none`. -/
def getEdge (L x : ℚ) : Option (String × ℚ) :=
  (edgestarts L).foldl
    (fun acc es => if es.2 ≤ x then some (es.1, x - es.2) else acc) none

/-- `LoopSim._getX` (loopsim.py:92-93): `position + self.edgestarts[edge]`.
A missing key raises `KeyError` in Python, embedded as `none`.  Note there
is no validation of `position` against the edge's length. -/
def getX (L : ℚ) (edge : String) (position : ℚ) : Option ℚ :=
  ((edgestarts L).lookup edge).map (fun s => position + s)

/-! ## Type registration (loopsim.py:19-27, 95-108) -/

/-- The keys of the `KNOWN_PARAMS` dict (loopsim.py:19-27), mapping
recognized static-parameter names to `traci.vehicletype` setters.  Note
`"laneChangeModel"` is not among them. -/
def KNOWN_PARAMS : List String :=
  ["maxSpeed", "accel", "decel", "sigma", "tau", "speedFactor", "speedDev"]

/-- The parameter-application loop of `LoopSim._addTypes`
(loopsim.py:104-106): for each `(pname, pvalue)` in a type's params dict,
the setter `KNOWN_PARAMS[pname]` is invoked iff `pname` is a recognized
key; an unrecognized name takes no branch at all (the function contains no
`raise`).  Parameter values never influence this control flow, so a params
dict is embedded as its list of keys, and the embedding returns the names
whose setters get invoked. -/
def addTypesApplied (paramNames : List String) : List String :=
  paramNames.filter (fun p => KNOWN_PARAMS.contains p)

/-- The keys of the `humanParams` dict of loopsim.py:234-248 (written
order), a params set the repository itself passes to `_addTypes`; it
includes the lane-change model selector `"laneChangeModel"`. -/
def humanParamNames : List String :=
  ["name", "count", "maxSpeed", "accel", "decel", "laneSpread",
   "speedFactor", "speedDev", "sigma", "tau", "laneChangeModel"]

/-! ## Vehicle placement `_addCars` (loopsim.py:115-138) -/

/-- The `laneSpread` value read by `_addCars` (loopsim.py:124, 135):
the placement uses the rotating `lane` counter iff `laneSpread is True`
(Python identity test); any other value is used directly as the lane
(`lane if laneSpread is True else laneSpread`). -/
inductive LaneChoice where
  | spread : LaneChoice
  | fixed : ℕ → LaneChoice
deriving DecidableEq, Repr

/-- One entry of `paramsList` as read by `_addCars` (loopsim.py:120-126):
`param["name"]`, `param["count"]`, `param.get("laneSpread", True)`. -/
structure CarSpec where
  name : String
  count : ℕ
  laneSpread : LaneChoice
deriving Repr

/-- One entry of the `cars` dict of `_addCars`:
`cars[carname] = (vtype, laneSpread)` (loopsim.py:126). -/
structure CreatedCar where
  carname : String
  vtype : String
  laneSpread : LaneChoice
deriving DecidableEq, Repr

/-- Placeholder for out-of-range indexing into created-car lists. -/
def dummyCreated : CreatedCar := ⟨"", "", .spread⟩

/-- Python's `"%03d" % i`: decimal digits of `i`, zero-padded to width 3. -/
def pad3 (i : ℕ) : String :=
  if i < 10 then "00" ++ toString i
  else if i < 100 then "0" ++ toString i
  else toString i

/-- The car-creation loop of `_addCars` (loopsim.py:120-126): for each spec,
`count` cars named `"%s-%03d" % (vtype, i)` are put into the `cars` dict.
The dict is embedded as the insertion sequence; this is faithful whenever
the generated car names are distinct (no key overwrites), which the
placement theorems take as a hypothesis. -/
def createdCars (ps : List CarSpec) : List CreatedCar :=
  ps.flatMap fun p =>
    (List.range p.count).map fun i => ⟨p.name ++ "-" ++ pad3 i, p.name, p.laneSpread⟩

/-- `self.numCars`, accumulated as `self.numCars += param["count"]`
(loopsim.py:121). -/
def numCarsOf (ps : List CarSpec) : ℕ :=
  ps.foldl (fun acc p => acc + p.count) 0

/-- The arguments of one `_createCar` call made by the placement loop
(loopsim.py:132-135): car name, type, ring position
`x = self.length * i / self.numCars` (Python 2 integer floor division for
the integer lengths the repository uses), and lane. -/
structure Placement where
  carname : String
  vtype : String
  x : ℕ
  lane : ℕ
deriving DecidableEq, Repr

/-- Placeholder for out-of-range indexing into placement lists. -/
def dummyPlacement : Placement := ⟨"", "", 0, 0⟩

/-- The placement loop of `_addCars` (loopsim.py:128-136): enumerate the
shuffled car list with index `i`, place car `i` at `length * i / numCars`,
on the rotating lane counter if its `laneSpread` is `True` and on its fixed
lane otherwise, and advance the counter `lane = (lane + 1) % numLanes`
unconditionally after every car. -/
def placeCars (L numLanes numCars : ℕ) : ℕ → ℕ → List CreatedCar → List Placement
  | _, _, [] => []
  | i, lane, c :: cs =>
    ⟨c.carname, c.vtype, L * i / numCars,
      match c.laneSpread with | .spread => lane | .fixed k => k⟩ ::
    placeCars L numLanes numCars (i + 1) ((lane + 1) % numLanes) cs

/-- `LoopSim._addCars` (loopsim.py:115-138).  `shuffled` stands for
`carsitems` after `random.shuffle` (loopsim.py:129-131): the composition of
the dict's iteration order with a uniformly random shuffle, hence an
arbitrary permutation of the created-car sequence; theorems quantify over
every permutation. -/
def addCars (L numLanes : ℕ) (ps : List CarSpec) (shuffled : List CreatedCar) :
    List Placement :=
  placeCars L numLanes (numCarsOf ps) 0 0 shuffled

/-! ## Lemmas about the scans -/

/-- With no limits and no lane filter the backward loop never breaks and
collects every scanned candidate, each prepended, reversing the visit
order. -/
theorem backScan_none (L : ℤ) (cars : List Car) (x : ℤ) (is : List ℕ) :
    ∀ ret, backScan L cars x none none none is ret =
      (is.map (carAt cars)).reverse ++ ret := by
  induction is with
  | nil => intro ret; simp [backScan]
  | cons i is ih =>
    intro ret
    simp only [backScan, tooFarBack, quotaFull, laneOk, Bool.or_self,
      Bool.false_eq_true, if_false, if_true, ih, List.map_cons,
      List.reverse_cons, List.append_assoc, List.singleton_append]

/-- With no limits and no lane filter the forward loop never breaks and
appends every scanned candidate in visit order. -/
theorem fwdScan_none (L : ℤ) (cars : List Car) (x : ℤ) (cnt : ℕ)
    (is : List ℕ) : ∀ ret, fwdScan L cars x none none none cnt is ret =
      ret ++ is.map (carAt cars) := by
  induction is with
  | nil => intro ret; simp [fwdScan]
  | cons i is ih =>
    intro ret
    simp only [fwdScan, tooFarFwd, quotaFull, laneOk, Bool.or_self,
      Bool.false_eq_true, if_false, if_true, ih, List.map_cons,
      List.append_assoc, List.singleton_append]

/-- Every car produced by the backward loop is either inherited from the
accumulator or read off one of the scanned indices. -/
theorem backScan_mem {L : ℤ} {cars : List Car} {x : ℤ} {db : Option ℤ}
    {nb : Option ℕ} {ln : Option ℕ} :
    ∀ {is : List ℕ} {ret : List Car} {c : Car},
      c ∈ backScan L cars x db nb ln is ret →
      c ∈ ret ∨ ∃ i ∈ is, c = carAt cars i := by
  intro is
  induction is with
  | nil => intro ret c hc; exact Or.inl hc
  | cons i is ih =>
    intro ret c hc
    rw [backScan] at hc
    split at hc
    · exact Or.inl hc
    · rcases ih hc with hr | ⟨j, hj, hcj⟩
      · split at hr
        · rcases List.mem_cons.1 hr with hcc | hr'
          · exact Or.inr ⟨i, List.mem_cons_self .., hcc⟩
          · exact Or.inl hr'
        · exact Or.inl hr
      · exact Or.inr ⟨j, List.mem_cons_of_mem _ hj, hcj⟩

/-- Every car produced by the forward loop is either inherited from the
accumulator or read off one of the scanned indices. -/
theorem fwdScan_mem {L : ℤ} {cars : List Car} {x : ℤ} {df : Option ℤ}
    {nf : Option ℕ} {ln : Option ℕ} {cnt : ℕ} :
    ∀ {is : List ℕ} {ret : List Car} {c : Car},
      c ∈ fwdScan L cars x df nf ln cnt is ret →
      c ∈ ret ∨ ∃ i ∈ is, c = carAt cars i := by
  intro is
  induction is with
  | nil => intro ret c hc; exact Or.inl hc
  | cons i is ih =>
    intro ret c hc
    rw [fwdScan] at hc
    split at hc
    · exact Or.inl hc
    · rcases ih hc with hr | ⟨j, hj, hcj⟩
      · split at hr
        · rcases List.mem_append.1 hr with hr' | hcc
          · exact Or.inl hr'
          · exact Or.inr ⟨i, List.mem_cons_self ..,
              (List.mem_singleton.1 hcc)⟩
        · exact Or.inl hr
      · exact Or.inr ⟨j, List.mem_cons_of_mem _ hj, hcj⟩

/-- The backward scan visits exactly the in-range indices other than the
focal one. -/
theorem mem_backIdxs {i idx n : ℕ} (h : idx < n) :
    i ∈ backIdxs idx n → i < n ∧ i ≠ idx := by
  intro hi
  rcases List.mem_append.1 hi with hi | hi
  · rw [List.mem_reverse, List.mem_range] at hi
    omega
  · rw [List.mem_reverse, List.mem_range'] at hi
    omega

/-- The forward scan visits exactly the in-range indices other than the
focal one. -/
theorem mem_fwdIdxs {i idx n : ℕ} (h : idx < n) :
    i ∈ fwdIdxs idx n → i < n ∧ i ≠ idx := by
  intro hi
  rcases List.mem_append.1 hi with hi | hi
  · rw [List.mem_range'] at hi
    omega
  · rw [List.mem_range] at hi
    omega

theorem carAt_eq_get (cars : List Car) (i : ℕ) (h : i < cars.length) :
    carAt cars i = cars.get ⟨i, h⟩ := by
  simp [carAt, List.getD_eq_getElem?_getD, List.getElem?_eq_getElem h]

/-! ## Claims C1 and C6 -/

/-- **C1, counterexample.**  Snapshot of N = 2 vehicles sorted by position;
the unbounded query from index 0 returns the single other vehicle twice —
length 2, not N − 1 = 1 — because with no limits both the backward and the
forward loop wrap through every other vehicle. -/
theorem getCars_unbounded_duplicates :
    getCars ⟨10, [⟨"a", "t", "e", 0, 0, 0⟩, ⟨"b", "t", "e", 0, 1, 0⟩]⟩ 0
        none none none none none =
      [⟨"b", "t", "e", 0, 1, 0⟩, ⟨"b", "t", "e", 0, 1, 0⟩] ∧
    ¬ (getCars ⟨10, [⟨"a", "t", "e", 0, 0, 0⟩, ⟨"b", "t", "e", 0, 1, 0⟩]⟩ 0
        none none none none none).length =
      [(⟨"a", "t", "e", 0, 0, 0⟩ : Car), ⟨"b", "t", "e", 0, 1, 0⟩].length - 1 := by
  decide

/-- **C1, amended.**  An unbounded `getCars` query (no lane filter, no count
or distance limits) returns the other vehicles twice, not once: the
backward loop already wraps through all N − 1 non-focal vehicles, and the
forward loop collects the same N − 1 vehicles again, so the result is
`others ++ others` where `others` lists every non-focal vehicle exactly
once in forward scan order (length N − 1). -/
theorem getCars_unbounded (sim : Sim) (idx : ℕ)
    (h : idx < sim.allCars.length) :
    getCars sim idx none none none none none =
      (fwdIdxs idx sim.allCars.length).map (carAt sim.allCars) ++
        (fwdIdxs idx sim.allCars.length).map (carAt sim.allCars) ∧
    ((fwdIdxs idx sim.allCars.length).map (carAt sim.allCars)).length =
      sim.allCars.length - 1 := by
  constructor
  · rw [getCars]
    rw [backScan_none, fwdScan_none]
    simp only [List.append_nil, backIdxs, fwdIdxs, List.map_append,
      List.map_reverse, List.reverse_append, List.reverse_reverse]
  · simp only [List.length_map, fwdIdxs, List.length_append,
      List.length_range', List.length_range]
    omega

/-- **C1, witness for the amended claim** at a concrete 3-vehicle
snapshot. -/
theorem getCars_unbounded_witness :
    (1 : ℕ) < ([⟨"a", "t", "e", 0, 0, 0⟩, ⟨"b", "t", "e", 0, 3, 0⟩,
        ⟨"c", "t", "e", 0, 7, 0⟩] : List Car).length ∧
    (getCars ⟨10, [⟨"a", "t", "e", 0, 0, 0⟩, ⟨"b", "t", "e", 0, 3, 0⟩,
        ⟨"c", "t", "e", 0, 7, 0⟩]⟩ 1 none none none none none =
      (fwdIdxs 1 3).map (carAt [⟨"a", "t", "e", 0, 0, 0⟩,
        ⟨"b", "t", "e", 0, 3, 0⟩, ⟨"c", "t", "e", 0, 7, 0⟩]) ++
      (fwdIdxs 1 3).map (carAt [⟨"a", "t", "e", 0, 0, 0⟩,
        ⟨"b", "t", "e", 0, 3, 0⟩, ⟨"c", "t", "e", 0, 7, 0⟩]) ∧
    ((fwdIdxs 1 3).map (carAt [⟨"a", "t", "e", 0, 0, 0⟩,
        ⟨"b", "t", "e", 0, 3, 0⟩, ⟨"c", "t", "e", 0, 7, 0⟩])).length = 3 - 1) :=
  ⟨by decide,
    getCars_unbounded ⟨10, [⟨"a", "t", "e", 0, 0, 0⟩, ⟨"b", "t", "e", 0, 3, 0⟩,
      ⟨"c", "t", "e", 0, 7, 0⟩]⟩ 1 (by decide)⟩

/-- **C6.**  For any snapshot and any combination of count limits, distance
limits and lane filter, `getCars` never returns the focal vehicle (vehicle
ids being unique per snapshot, as `_run` builds one entry per car name),
and on a single-vehicle snapshot every query returns the empty list. -/
theorem getCars_excludes_focal (sim : Sim) (idx : ℕ) (nb nf : Option ℕ)
    (db df : Option ℤ) (ln : Option ℕ) (h : idx < sim.allCars.length) :
    ((sim.allCars.map Car.id).Nodup →
      carAt sim.allCars idx ∉ getCars sim idx nb nf db df ln) ∧
    (sim.allCars.length = 1 → getCars sim idx nb nf db df ln = []) := by
  constructor
  · intro hnodup hmem
    have hpair : sim.allCars.Pairwise (fun a b => a.id ≠ b.id) := by
      rw [List.Nodup, List.pairwise_map] at hnodup
      exact hnodup
    have hget := List.pairwise_iff_get.1 hpair
    have key : ∀ i, i < sim.allCars.length → i ≠ idx →
        carAt sim.allCars idx ≠ carAt sim.allCars i := by
      intro i hi hne heq
      rw [carAt_eq_get _ _ h, carAt_eq_get _ _ hi] at heq
      rcases Nat.lt_or_ge i idx with hlt | hge
      · exact hget ⟨i, hi⟩ ⟨idx, h⟩ hlt (congrArg Car.id heq.symm)
      · have : idx < i := by omega
        exact hget ⟨idx, h⟩ ⟨i, hi⟩ this (congrArg Car.id heq)
    rcases fwdScan_mem hmem with hback | ⟨i, hi, hci⟩
    · rcases backScan_mem hback with hnil | ⟨i, hi, hci⟩
      · exact List.not_mem_nil _ hnil
      · rcases mem_backIdxs h hi with ⟨hlt, hne⟩
        exact key i hlt (fun e => hne e) hci
    · rcases mem_fwdIdxs h hi with ⟨hlt, hne⟩
      exact key i hlt (fun e => hne e) hci
  · intro hlen
    have hidx : idx = 0 := by omega
    subst hidx
    rw [getCars, hlen]
    simp [backIdxs, fwdIdxs, backScan, fwdScan]

/-- **C6, witness** at a concrete 1-vehicle and 3-vehicle snapshot. -/
theorem getCars_excludes_focal_witness :
    ((0 : ℕ) < ([⟨"a", "t", "e", 0, 4, 0⟩] : List Car).length ∧
      (([⟨"a", "t", "e", 0, 4, 0⟩] : List Car).map Car.id).Nodup ∧
      ([⟨"a", "t", "e", 0, 4, 0⟩] : List Car).length = 1) ∧
    carAt [⟨"a", "t", "e", 0, 4, 0⟩] 0 ∉
      getCars ⟨10, [⟨"a", "t", "e", 0, 4, 0⟩]⟩ 0 (some 2) none (some 3) none
        (some 0) ∧
    getCars ⟨10, [⟨"a", "t", "e", 0, 4, 0⟩]⟩ 0 (some 2) none (some 3) none
      (some 0) = [] :=
  ⟨⟨by decide, by decide, by decide⟩,
    (getCars_excludes_focal ⟨10, [⟨"a", "t", "e", 0, 4, 0⟩]⟩ 0 (some 2) none
      (some 3) none (some 0) (by decide)).1 (by decide),
    (getCars_excludes_focal ⟨10, [⟨"a", "t", "e", 0, 4, 0⟩]⟩ 0 (some 2) none
      (some 3) none (some 0) (by decide)).2 (by decide)⟩

/-- With a forward count budget of `0` the forward loop breaks before its
first candidate (`len(ret) - cnt >= 0` always holds) and returns the
accumulator unchanged. -/
theorem fwdScan_quota0 (L : ℤ) (cars : List Car) (x : ℤ) (df : Option ℤ)
    (ln : Option ℕ) (cnt : ℕ) (is : List ℕ) (ret : List Car) :
    fwdScan L cars x df (some 0) ln cnt is ret = ret := by
  cases is with
  | nil => rfl
  | cons i is => simp [fwdScan, quotaFull]

/-- With a backward count budget of `0` the backward loop breaks before its
first candidate (`len(ret) >= 0` always holds) and returns the accumulator
unchanged. -/
theorem backScan_quota0 (L : ℤ) (cars : List Car) (x : ℤ) (db : Option ℤ)
    (ln : Option ℕ) (is : List ℕ) (ret : List Car) :
    backScan L cars x db (some 0) ln is ret = ret := by
  cases is with
  | nil => rfl
  | cons i is => simp [backScan, quotaFull]

/-- Every car the backward loop adds to the accumulator passed the
backward-distance budget at the moment it was added. -/
theorem backScan_le_dist {L x d : ℤ} {cars : List Car} {nb : Option ℕ}
    {ln : Option ℕ} :
    ∀ {is : List ℕ} {ret : List Car} {c : Car},
      c ∈ backScan L cars x (some d) nb ln is ret →
      c ∈ ret ∨ backDist L x c.x ≤ d := by
  intro is
  induction is with
  | nil => intro ret c hc; exact Or.inl hc
  | cons i is ih =>
    intro ret c hc
    rw [backScan] at hc
    split at hc
    · exact Or.inl hc
    · next hcond =>
      have hle : backDist L x (carAt cars i).x ≤ d := by
        simp only [Bool.or_eq_true, not_or, tooFarBack,
          decide_eq_true_eq, not_lt] at hcond
        exact hcond.1
      rcases ih hc with hr | hd
      · split at hr
        · rcases List.mem_cons.1 hr with hcc | hr'
          · exact Or.inr (hcc ▸ hle)
          · exact Or.inl hr'
        · exact Or.inl hr
      · exact Or.inr hd

/-- Every car the forward loop adds to the accumulator passed the
forward-distance budget at the moment it was added. -/
theorem fwdScan_le_dist {L x d : ℤ} {cars : List Car} {nf : Option ℕ}
    {ln : Option ℕ} {cnt : ℕ} :
    ∀ {is : List ℕ} {ret : List Car} {c : Car},
      c ∈ fwdScan L cars x (some d) nf ln cnt is ret →
      c ∈ ret ∨ fwdDist L x c.x ≤ d := by
  intro is
  induction is with
  | nil => intro ret c hc; exact Or.inl hc
  | cons i is ih =>
    intro ret c hc
    rw [fwdScan] at hc
    split at hc
    · exact Or.inl hc
    · next hcond =>
      have hle : fwdDist L x (carAt cars i).x ≤ d := by
        simp only [Bool.or_eq_true, not_or, tooFarFwd,
          decide_eq_true_eq, not_lt] at hcond
        exact hcond.1
      rcases ih hc with hr | hd
      · split at hr
        · rcases List.mem_append.1 hr with hr' | hcc
          · exact Or.inl hr'
          · exact Or.inr ((List.mem_singleton.1 hcc) ▸ hle)
        · exact Or.inl hr
      · exact Or.inr hd

/-! ## Claim C3 -/

/-- **C3.**  First conjunct: a scanned candidate that fails the lane filter
but not the distance budget is passed over without any effect — neither the
accumulator (hence neither the count budget `len(ret) - cnt`) nor the
continuation of the scan changes, exactly as if the candidate were absent.
Second conjunct, the claim's concrete scenario: positions {0 (lane 0),
50 (lane 1), 100 (lane 0)}; the ahead-only query (`numBack = 0`, matching
"querying ahead") from index 0 with `lane = 0` and `maxAhead = 1` returns
exactly the lane-0 vehicle at 100: the lane-1 vehicle at 50 is visited but
consumes no budget. -/
theorem getCars_lane_skip :
    (∀ (L : ℤ) (cars : List Car) (x : ℤ) (df : Option ℤ) (nf : Option ℕ)
        (l : ℕ) (cnt : ℕ) (is1 : List ℕ) (j : ℕ) (is2 : List ℕ)
        (ret : List Car),
        laneOk (some l) (carAt cars j) = false →
        tooFarFwd L x df (carAt cars j) = false →
        fwdScan L cars x df nf (some l) cnt (is1 ++ j :: is2) ret =
          fwdScan L cars x df nf (some l) cnt (is1 ++ is2) ret) ∧
    getCars ⟨300, [⟨"a", "t", "e", 0, 0, 0⟩, ⟨"b", "t", "e", 1, 50, 0⟩,
        ⟨"c", "t", "e", 0, 100, 0⟩]⟩ 0 (some 0) (some 1) none none (some 0) =
      [⟨"c", "t", "e", 0, 100, 0⟩] := by
  constructor
  · intro L cars x df nf l cnt is1 j is2 ret hln hfar
    induction is1 generalizing ret with
    | nil =>
      simp only [List.nil_append]
      rw [fwdScan]
      simp only [hfar, Bool.false_or]
      by_cases hq : quotaFull nf (ret.length - cnt) = true
      · rw [if_pos hq]
        cases is2 with
        | nil => rfl
        | cons k is2' =>
          rw [fwdScan]
          simp [hq]
      · rw [if_neg hq, hln]
        simp
    | cons i is1 ih =>
      simp only [List.cons_append]
      rw [fwdScan, fwdScan]
      split
      · rfl
      · exact ih _
  · decide

/-- **C3, witness**: the skip equality applied at a concrete scan in which
the lane-1 candidate (index 1) sits between matching candidates. -/
theorem getCars_lane_skip_witness :
    (laneOk (some 0) (carAt [⟨"a", "t", "e", 0, 0, 0⟩, ⟨"b", "t", "e", 1, 50, 0⟩,
        ⟨"c", "t", "e", 0, 100, 0⟩] 1) = false ∧
      tooFarFwd 300 0 none (carAt [⟨"a", "t", "e", 0, 0, 0⟩,
        ⟨"b", "t", "e", 1, 50, 0⟩, ⟨"c", "t", "e", 0, 100, 0⟩] 1) = false) ∧
    fwdScan 300 [⟨"a", "t", "e", 0, 0, 0⟩, ⟨"b", "t", "e", 1, 50, 0⟩,
        ⟨"c", "t", "e", 0, 100, 0⟩] 0 none (some 1) (some 0) 0 ([1, 2]) [] =
      fwdScan 300 [⟨"a", "t", "e", 0, 0, 0⟩, ⟨"b", "t", "e", 1, 50, 0⟩,
        ⟨"c", "t", "e", 0, 100, 0⟩] 0 none (some 1) (some 0) 0 ([2]) [] :=
  ⟨⟨by decide, by decide⟩,
    getCars_lane_skip.1 300 [⟨"a", "t", "e", 0, 0, 0⟩, ⟨"b", "t", "e", 1, 50, 0⟩,
      ⟨"c", "t", "e", 0, 100, 0⟩] 0 none (some 1) 0 0 [] 1 [2] []
      (by decide) (by decide)⟩

/-! ## Claim C5 -/

/-- **C5.**  Circular distances: `fwdDist 10 9 1 = 2` (a focal vehicle at 9
and a candidate at 1 on a ring of length 10 are 2 apart forward, not 8) and
symmetrically `backDist 10 1 9 = 2`.  When a backward distance budget `d` is
given, every vehicle in the backward portion of a `getCars` result (the
result of the backward loop, isolated with a forward budget of `0`)
satisfies `backDist ≤ d`; symmetrically for the forward direction.  Last
conjunct: the backward scan stops at the first candidate whose backward
distance exceeds the budget — the indices behind it are never consulted. -/
theorem getCars_circular_distance :
    fwdDist 10 9 1 = 2 ∧ backDist 10 1 9 = 2 ∧
    (∀ (sim : Sim) (idx : ℕ) (nb : Option ℕ) (d : ℤ) (df : Option ℤ)
        (ln : Option ℕ) (c : Car),
        c ∈ getCars sim idx nb (some 0) (some d) df ln →
        backDist sim.length (carAt sim.allCars idx).x c.x ≤ d) ∧
    (∀ (sim : Sim) (idx : ℕ) (nf : Option ℕ) (db : Option ℤ) (d : ℤ)
        (ln : Option ℕ) (c : Car),
        c ∈ getCars sim idx (some 0) nf db (some d) ln →
        fwdDist sim.length (carAt sim.allCars idx).x c.x ≤ d) ∧
    (∀ (L : ℤ) (cars : List Car) (x d : ℤ) (nb : Option ℕ) (ln : Option ℕ)
        (is1 : List ℕ) (j : ℕ) (is2 : List ℕ) (ret : List Car),
        d < backDist L x (carAt cars j).x →
        backScan L cars x (some d) nb ln (is1 ++ j :: is2) ret =
          backScan L cars x (some d) nb ln (is1 ++ [j]) ret) := by
  refine ⟨by decide, by decide, ?_, ?_, ?_⟩
  · intro sim idx nb d df ln c hc
    rw [getCars, fwdScan_quota0] at hc
    rcases backScan_le_dist hc with hnil | hle
    · exact absurd hnil (List.not_mem_nil c)
    · exact hle
  · intro sim idx nf db d ln c hc
    rw [getCars, backScan_quota0] at hc
    rcases fwdScan_le_dist hc with hnil | hle
    · exact absurd hnil (List.not_mem_nil c)
    · exact hle
  · intro L cars x d nb ln is1 j is2 ret hd
    have hfar : tooFarBack L x (some d) (carAt cars j) = true := by
      simp only [tooFarBack, decide_eq_true_eq]
      exact hd
    induction is1 generalizing ret with
    | nil =>
      simp only [List.nil_append]
      rw [backScan, backScan]
      simp [hfar]
    | cons i is1 ih =>
      simp only [List.cons_append]
      rw [backScan, backScan]
      split
      · rfl
      · exact ih _

/-- **C5, witness**: the backward-portion bound applied at a concrete
two-vehicle snapshot (budget 20, vehicle 10 behind), and the stop-at-first
equality applied where the single scanned candidate exceeds the budget. -/
theorem getCars_circular_distance_witness :
    (⟨"a", "t", "e", 0, 240, 0⟩ ∈
        getCars ⟨300, [⟨"a", "t", "e", 0, 240, 0⟩, ⟨"b", "t", "e", 0, 250, 0⟩]⟩
          1 none (some 0) (some 20) none none ∧
      backDist 300 (carAt [⟨"a", "t", "e", 0, 240, 0⟩, ⟨"b", "t", "e", 0, 250, 0⟩]
          1).x (⟨"a", "t", "e", 0, 240, 0⟩ : Car).x ≤ 20) ∧
    ((20 : ℤ) < backDist 300 250 (carAt [⟨"a", "t", "e", 0, 100, 0⟩] 0).x ∧
      backScan 300 [⟨"a", "t", "e", 0, 100, 0⟩] 250 (some 20) none none
          ([] ++ 0 :: [0]) [] =
        backScan 300 [⟨"a", "t", "e", 0, 100, 0⟩] 250 (some 20) none none
          ([] ++ [0]) []) :=
  ⟨⟨by decide,
      getCars_circular_distance.2.2.1
        ⟨300, [⟨"a", "t", "e", 0, 240, 0⟩, ⟨"b", "t", "e", 0, 250, 0⟩]⟩ 1 none
        20 none none ⟨"a", "t", "e", 0, 240, 0⟩ (by decide)⟩,
    ⟨by decide,
      getCars_circular_distance.2.2.2.2 300 [⟨"a", "t", "e", 0, 100, 0⟩] 250 20
        none none [] 0 [0] [] (by decide)⟩⟩

/-- The forward loop only compares `len(ret) - cnt`, so a common prefix `q`
of the accumulator (with `cnt = len(q)`) passes through it untouched. -/
theorem fwdScan_shift (L : ℤ) (cars : List Car) (x : ℤ) (df : Option ℤ)
    (nf : Option ℕ) (ln : Option ℕ) (q : List Car) (is : List ℕ) :
    ∀ r, fwdScan L cars x df nf ln q.length is (q ++ r) =
      q ++ fwdScan L cars x df nf ln 0 is r := by
  induction is with
  | nil => intro r; rfl
  | cons i is ih =>
    intro r
    rw [fwdScan, fwdScan]
    have hlen : (q ++ r).length - q.length = r.length - 0 := by
      simp [List.length_append]
    rw [hlen]
    split
    · rfl
    · by_cases hl : laneOk ln (carAt cars i) = true
      · rw [if_pos hl, if_pos hl, List.append_assoc]
        exact ih (r ++ [carAt cars i])
      · rw [if_neg hl, if_neg hl]
        exact ih r

/-- `getCars` always decomposes into its backward portion (isolated by a
forward budget of `0`) followed by its forward portion (isolated by a
backward budget of `0`). -/
theorem getCars_decomp (sim : Sim) (idx : ℕ) (nb nf : Option ℕ)
    (db df : Option ℤ) (ln : Option ℕ) :
    getCars sim idx nb nf db df ln =
      getCars sim idx nb (some 0) db df ln ++
        getCars sim idx (some 0) nf db df ln := by
  simp only [getCars, fwdScan_quota0, backScan_quota0, List.length_nil]
  have h := fwdScan_shift sim.length sim.allCars (carAt sim.allCars idx).x df
    nf ln
    (backScan sim.length sim.allCars (carAt sim.allCars idx).x db nb ln
      (backIdxs idx sim.allCars.length) [])
    (fwdIdxs idx sim.allCars.length) []
  rw [List.append_nil] at h
  exact h

/-- An integer in `(-m, 0)` reduced mod `m` lands at `a + m`. -/
theorem emod_eq_add_of_neg {a m : ℤ} (h1 : -m < a) (h2 : a < 0) :
    a % m = a + m := by
  have h3 : (a + m) % m = a % m := by
    have h4 : (a + m * 1) % m = a % m := Int.add_mul_emod_self_left a m 1
    rwa [mul_one] at h4
  rw [← h3]
  exact Int.emod_eq_of_lt (by linarith) (by linarith)

/-- Strict sorting of the snapshot, read through `carAt`. -/
theorem carAt_lt_carAt {cars : List Car} (hsort : cars.Pairwise (fun a b => a.x < b.x))
    {i j : ℕ} (hij : i < j) (hj : j < cars.length) :
    (carAt cars i).x < (carAt cars j).x := by
  have hi : i < cars.length := lt_trans hij hj
  rw [carAt_eq_get cars i hi, carAt_eq_get cars j hj]
  exact List.pairwise_iff_get.1 hsort ⟨i, hi⟩ ⟨j, hj⟩ hij

theorem carAt_mem {cars : List Car} {i : ℕ} (hi : i < cars.length) :
    carAt cars i ∈ cars := by
  rw [carAt_eq_get cars i hi]
  exact List.get_mem cars i hi

/-- Along the forward visit order, forward circular distance from the focal
vehicle is monotone, provided the snapshot is strictly sorted by position
inside `[0, L)`. -/
theorem fwdIdxs_map_pairwise (sim : Sim) (idx : ℕ)
    (h : idx < sim.allCars.length) (hL : 0 < sim.length)
    (hsort : sim.allCars.Pairwise (fun a b => a.x < b.x))
    (hrange : ∀ c ∈ sim.allCars, 0 ≤ c.x ∧ c.x < sim.length) :
    ((fwdIdxs idx sim.allCars.length).map (carAt sim.allCars)).Pairwise
      (fun a b => fwdDist sim.length (carAt sim.allCars idx).x a.x ≤
        fwdDist sim.length (carAt sim.allCars idx).x b.x) := by
  set L := sim.length with hLdef
  set cars := sim.allCars with hcars
  set x := (carAt cars idx).x with hx
  set n := cars.length with hn
  have hxr : 0 ≤ x ∧ x < L := hrange _ (carAt_mem h)
  have hjr : ∀ j, j < n → 0 ≤ (carAt cars j).x ∧ (carAt cars j).x < L :=
    fun j hj => hrange _ (carAt_mem hj)
  have dAfter : ∀ j, idx < j → j < n →
      fwdDist L x (carAt cars j).x = (carAt cars j).x - x := by
    intro j h1 h2
    have hlt := carAt_lt_carAt hsort h1 h2
    have := hjr j h2
    exact Int.emod_eq_of_lt (by linarith) (by linarith [hxr.1])
  have dBefore : ∀ j, j < idx →
      fwdDist L x (carAt cars j).x = (carAt cars j).x - x + L := by
    intro j h1
    have hlt := carAt_lt_carAt hsort h1 h
    have := hjr j (lt_trans h1 h)
    exact emod_eq_add_of_neg (by linarith [hxr.2]) (by linarith)
  rw [List.pairwise_map, fwdIdxs, List.pairwise_append]
  refine ⟨?_, ?_, ?_⟩
  · refine (List.pairwise_lt_range' (idx + 1) (n - idx - 1)).imp_of_mem ?_
    intro a b ha hb hab
    rw [List.mem_range'] at ha hb
    obtain ⟨i, hi, rfl⟩ := ha
    obtain ⟨i', hi', rfl⟩ := hb
    have hb2 : idx + 1 + 1 * i' < n := by omega
    rw [dAfter _ (by omega) (by omega), dAfter _ (by omega) (by omega)]
    have := carAt_lt_carAt hsort hab hb2
    linarith
  · refine (List.pairwise_lt_range idx).imp_of_mem ?_
    intro a b ha hb hab
    rw [List.mem_range] at ha hb
    rw [dBefore _ ha, dBefore _ hb]
    have := carAt_lt_carAt hsort hab (lt_trans hb h)
    linarith
  · intro a ha b hb
    rw [List.mem_range'] at ha
    rw [List.mem_range] at hb
    obtain ⟨i, hi, rfl⟩ := ha
    have ha2 : idx + 1 + 1 * i < n := by omega
    rw [dAfter _ (by omega) ha2, dBefore _ hb]
    have h1 := (hjr _ ha2).2
    have h2 := (hjr b (lt_trans hb h)).1
    linarith

/-- Along the backward visit order, backward circular distance from the
focal vehicle is monotone, provided the snapshot is strictly sorted by
position inside `[0, L)`. -/
theorem backIdxs_map_pairwise (sim : Sim) (idx : ℕ)
    (h : idx < sim.allCars.length) (hL : 0 < sim.length)
    (hsort : sim.allCars.Pairwise (fun a b => a.x < b.x))
    (hrange : ∀ c ∈ sim.allCars, 0 ≤ c.x ∧ c.x < sim.length) :
    ((backIdxs idx sim.allCars.length).map (carAt sim.allCars)).Pairwise
      (fun a b => backDist sim.length (carAt sim.allCars idx).x a.x ≤
        backDist sim.length (carAt sim.allCars idx).x b.x) := by
  set L := sim.length with hLdef
  set cars := sim.allCars with hcars
  set x := (carAt cars idx).x with hx
  set n := cars.length with hn
  have hxr : 0 ≤ x ∧ x < L := hrange _ (carAt_mem h)
  have hjr : ∀ j, j < n → 0 ≤ (carAt cars j).x ∧ (carAt cars j).x < L :=
    fun j hj => hrange _ (carAt_mem hj)
  have dBefore : ∀ j, j < idx →
      backDist L x (carAt cars j).x = x - (carAt cars j).x := by
    intro j h1
    have hlt := carAt_lt_carAt hsort h1 h
    have := hjr j (lt_trans h1 h)
    exact Int.emod_eq_of_lt (by linarith) (by linarith [hxr.2])
  have dAfter : ∀ j, idx < j → j < n →
      backDist L x (carAt cars j).x = x - (carAt cars j).x + L := by
    intro j h1 h2
    have hlt := carAt_lt_carAt hsort h1 h2
    have := hjr j h2
    exact emod_eq_add_of_neg (by linarith [hxr.1]) (by linarith)
  rw [List.pairwise_map, backIdxs, List.pairwise_append]
  refine ⟨?_, ?_, ?_⟩
  · rw [List.pairwise_reverse]
    refine (List.pairwise_lt_range idx).imp_of_mem ?_
    intro a b ha hb hab
    rw [List.mem_range] at ha hb
    rw [dBefore _ ha, dBefore _ hb]
    have := carAt_lt_carAt hsort hab (lt_trans hb h)
    linarith
  · rw [List.pairwise_reverse]
    refine (List.pairwise_lt_range' (idx + 1) (n - idx - 1)).imp_of_mem ?_
    intro a b ha hb hab
    rw [List.mem_range'] at ha hb
    obtain ⟨i, hi, rfl⟩ := ha
    obtain ⟨i', hi', rfl⟩ := hb
    have ha2 : idx + 1 + 1 * i < n := by omega
    have hb2 : idx + 1 + 1 * i' < n := by omega
    rw [dAfter _ (by omega) ha2, dAfter _ (by omega) hb2]
    have := carAt_lt_carAt hsort hab hb2
    linarith
  · intro a ha b hb
    rw [List.mem_reverse, List.mem_range] at ha
    rw [List.mem_reverse, List.mem_range'] at hb
    obtain ⟨i, hi, rfl⟩ := hb
    have hb2 : idx + 1 + 1 * i < n := by omega
    rw [dBefore _ ha, dAfter _ (by omega) hb2]
    have h1 := (hjr _ hb2).2
    have h2 := (hjr a (lt_trans ha h)).1
    linarith

/-- The backward loop returns the reverse of a sublist of the visited
candidates, prepended to the accumulator. -/
theorem backScan_sublist (L : ℤ) (cars : List Car) (x : ℤ) (db : Option ℤ)
    (nb : Option ℕ) (ln : Option ℕ) :
    ∀ (is : List ℕ) (ret : List Car),
      ∃ s : List Car, backScan L cars x db nb ln is ret = s.reverse ++ ret ∧
        s.Sublist (is.map (carAt cars)) := by
  intro is
  induction is with
  | nil => intro ret; exact ⟨[], rfl, List.nil_sublist _⟩
  | cons i is ih =>
    intro ret
    rw [backScan]
    split
    · exact ⟨[], rfl, List.nil_sublist _⟩
    · by_cases hl : laneOk ln (carAt cars i) = true
      · rw [if_pos hl]
        obtain ⟨s, hs, hsub⟩ := ih (carAt cars i :: ret)
        refine ⟨carAt cars i :: s, ?_, List.Sublist.cons₂ _ hsub⟩
        rw [hs, List.reverse_cons, List.append_assoc, List.singleton_append]
      · rw [if_neg hl]
        obtain ⟨s, hs, hsub⟩ := ih ret
        exact ⟨s, hs, List.Sublist.cons _ hsub⟩

/-- The forward loop appends a sublist of the visited candidates to the
accumulator. -/
theorem fwdScan_sublist (L : ℤ) (cars : List Car) (x : ℤ) (df : Option ℤ)
    (nf : Option ℕ) (ln : Option ℕ) (cnt : ℕ) :
    ∀ (is : List ℕ) (ret : List Car),
      ∃ s : List Car, fwdScan L cars x df nf ln cnt is ret = ret ++ s ∧
        s.Sublist (is.map (carAt cars)) := by
  intro is
  induction is with
  | nil => intro ret; exact ⟨[], (List.append_nil ret).symm, List.nil_sublist _⟩
  | cons i is ih =>
    intro ret
    rw [fwdScan]
    split
    · exact ⟨[], (List.append_nil ret).symm, List.nil_sublist _⟩
    · by_cases hl : laneOk ln (carAt cars i) = true
      · rw [if_pos hl]
        obtain ⟨s, hs, hsub⟩ := ih (ret ++ [carAt cars i])
        refine ⟨carAt cars i :: s, ?_, List.Sublist.cons₂ _ hsub⟩
        rw [hs, List.append_assoc, List.singleton_append]
      · rw [if_neg hl]
        obtain ⟨s, hs, hsub⟩ := ih ret
        exact ⟨s, hs, List.Sublist.cons _ hsub⟩

/-! ## Claim C4 -/

/-- **C4.**  General part: every `getCars` result is its backward portion
followed by its forward portion, and — for a snapshot strictly sorted by
position within `[0, L)` — the backward portion is ordered
farthest-behind-first (backward distance non-increasing) while the forward
portion is ordered nearest-first (forward distance non-decreasing), so the
whole result reads far-behind → near-behind → near-ahead → far-ahead.
Concrete part: 3 vehicles at {0, 100, 200} on a ring of length 300, queried
from the vehicle at 100 with `maxBehind = 1` and `maxAhead = 1`, give
`[vehicle@0, vehicle@200]` in that order. -/
theorem getCars_ordered :
    (∀ (sim : Sim) (idx : ℕ) (nb nf : Option ℕ) (db df : Option ℤ)
        (ln : Option ℕ),
        idx < sim.allCars.length → 0 < sim.length →
        sim.allCars.Pairwise (fun a b => a.x < b.x) →
        (∀ c ∈ sim.allCars, 0 ≤ c.x ∧ c.x < sim.length) →
        getCars sim idx nb nf db df ln =
          getCars sim idx nb (some 0) db df ln ++
            getCars sim idx (some 0) nf db df ln ∧
        (getCars sim idx nb (some 0) db df ln).Pairwise
          (fun a b => backDist sim.length (carAt sim.allCars idx).x b.x ≤
            backDist sim.length (carAt sim.allCars idx).x a.x) ∧
        (getCars sim idx (some 0) nf db df ln).Pairwise
          (fun a b => fwdDist sim.length (carAt sim.allCars idx).x a.x ≤
            fwdDist sim.length (carAt sim.allCars idx).x b.x)) ∧
    getCars ⟨300, [⟨"a", "t", "e", 0, 0, 0⟩, ⟨"b", "t", "e", 0, 100, 0⟩,
        ⟨"c", "t", "e", 0, 200, 0⟩]⟩ 1 (some 1) (some 1) none none none =
      [⟨"a", "t", "e", 0, 0, 0⟩, ⟨"c", "t", "e", 0, 200, 0⟩] := by
  constructor
  · intro sim idx nb nf db df ln h hL hsort hrange
    refine ⟨getCars_decomp sim idx nb nf db df ln, ?_, ?_⟩
    · rw [getCars, fwdScan_quota0]
      obtain ⟨s, hs, hsub⟩ := backScan_sublist sim.length sim.allCars
        (carAt sim.allCars idx).x db nb ln (backIdxs idx sim.allCars.length) []
      rw [hs, List.append_nil, List.pairwise_reverse]
      exact List.Pairwise.sublist hsub
        (backIdxs_map_pairwise sim idx h hL hsort hrange)
    · rw [getCars, backScan_quota0, List.length_nil]
      obtain ⟨s, hs, hsub⟩ := fwdScan_sublist sim.length sim.allCars
        (carAt sim.allCars idx).x df nf ln 0 (fwdIdxs idx sim.allCars.length) []
      rw [hs, List.nil_append]
      exact List.Pairwise.sublist hsub
        (fwdIdxs_map_pairwise sim idx h hL hsort hrange)
  · decide

/-- **C4, witness**: the general part applied at the claim's concrete
3-vehicle snapshot. -/
theorem getCars_ordered_witness :
    ((1 : ℕ) < ([⟨"a", "t", "e", 0, 0, 0⟩, ⟨"b", "t", "e", 0, 100, 0⟩,
        ⟨"c", "t", "e", 0, 200, 0⟩] : List Car).length ∧
      (0 : ℤ) < 300 ∧
      ([⟨"a", "t", "e", 0, 0, 0⟩, ⟨"b", "t", "e", 0, 100, 0⟩,
        ⟨"c", "t", "e", 0, 200, 0⟩] : List Car).Pairwise
          (fun a b => a.x < b.x)) ∧
    (getCars ⟨300, [⟨"a", "t", "e", 0, 0, 0⟩, ⟨"b", "t", "e", 0, 100, 0⟩,
        ⟨"c", "t", "e", 0, 200, 0⟩]⟩ 1 (some 1) (some 1) none none none =
      getCars ⟨300, [⟨"a", "t", "e", 0, 0, 0⟩, ⟨"b", "t", "e", 0, 100, 0⟩,
        ⟨"c", "t", "e", 0, 200, 0⟩]⟩ 1 (some 1) (some 0) none none none ++
      getCars ⟨300, [⟨"a", "t", "e", 0, 0, 0⟩, ⟨"b", "t", "e", 0, 100, 0⟩,
        ⟨"c", "t", "e", 0, 200, 0⟩]⟩ 1 (some 0) (some 1) none none none) :=
  ⟨⟨by decide, by decide, by decide⟩,
    ((getCars_ordered.1 ⟨300, [⟨"a", "t", "e", 0, 0, 0⟩,
        ⟨"b", "t", "e", 0, 100, 0⟩, ⟨"c", "t", "e", 0, 200, 0⟩]⟩ 1 (some 1)
        (some 1) none none none (by decide) (by decide) (by decide)
        (by decide)).1)⟩

/-! ## Claims C2 and C7: the position mapper -/

/-- For every `x ≥ 0`, `_getEdge` returns `("bottom", x)`: the table's last
iterated entry is `("bottom", 0)`, whose guard `x >= s` holds for every
`x ≥ 0` and overwrites whatever earlier entries produced. -/
theorem getEdge_eq_bottom (L x : ℚ) (hx : 0 ≤ x) :
    getEdge L x = some ("bottom", x) := by
  simp only [getEdge, edgestarts, List.foldl_cons, List.foldl_nil]
  rw [if_pos hx, sub_zero]

/-- **C2, counterexample.**  The claim's second direction fails: for
`L = 100`, the valid pair `("top", 5)` maps to `x = 55`, but `_getEdge 55`
is `("bottom", 55)`, not `("top", 5)` — `_getEdge` keeps the *last* matching
entry of the dict's iteration order, and "bottom" (start 0, matching every
`x ≥ 0`) is iterated last. -/
theorem mapper_roundTrip_cex :
    (getX 100 "top" 5).bind (fun y => getEdge 100 y) = some ("bottom", 55) ∧
    (getX 100 "top" 5).bind (fun y => getEdge 100 y) ≠
      some (("top", 5) : String × ℚ) := by
  have h : (getX 100 "top" 5).bind (fun y => getEdge 100 y) =
      some ("bottom", 55) := by
    show getEdge 100 (5 + 2 * (100 / 4)) = some ("bottom", 55)
    rw [getEdge_eq_bottom 100 _ (by norm_num)]
    norm_num
  refine ⟨h, ?_⟩
  rw [h]
  decide

/-- **C2, amended.**  Only the scalar direction of the round trip holds:
for every `x ≥ 0` (so in particular every `x ∈ [0, L)`),
`_getX (_getEdge x) = x` — whichever entry `_getEdge` keeps, `startx` is
`x - s` for that same entry's `s`.  The pair direction holds only for edge
"bottom": `_getEdge` returns `("bottom", x)` for every `x ≥ 0`, so a valid
`(edge, offset)` pair on "right", "top" or "left" never round-trips. -/
theorem mapper_roundTrip_amended :
    (∀ L x : ℚ, 0 ≤ x →
      (getEdge L x).bind (fun es => getX L es.1 es.2) = some x) ∧
    (∀ L p : ℚ, 0 ≤ p →
      (getX L "bottom" p).bind (fun y => getEdge L y) = some ("bottom", p)) ∧
    (∀ L p : ℚ, 0 < L → 0 ≤ p → p < L / 4 →
      ∀ e ∈ (["right", "top", "left"] : List String),
        (getX L e p).bind (fun y => getEdge L y) ≠ some (e, p)) := by
  refine ⟨?_, ?_, ?_⟩
  · intro L x hx
    rw [getEdge_eq_bottom L x hx]
    show some (x + 0) = some x
    rw [add_zero]
  · intro L p hp
    show getEdge L (p + 0) = some ("bottom", p)
    rw [getEdge_eq_bottom L _ (by linarith), add_zero]
  · intro L p hL hp0 hp4 e he
    have h4 : (0 : ℚ) < L / 4 := by linarith
    simp only [List.mem_cons, List.mem_singleton, List.not_mem_nil,
      or_false] at he
    rcases he with rfl | rfl | rfl
    · show getEdge L (p + L / 4) ≠ some ("right", p)
      rw [getEdge_eq_bottom L _ (by linarith)]
      intro h
      simp only [Option.some.injEq, Prod.mk.injEq] at h
      exact absurd h.1 (by decide)
    · show getEdge L (p + 2 * (L / 4)) ≠ some ("top", p)
      rw [getEdge_eq_bottom L _ (by linarith)]
      intro h
      simp only [Option.some.injEq, Prod.mk.injEq] at h
      exact absurd h.1 (by decide)
    · show getEdge L (p + 3 * (L / 4)) ≠ some ("left", p)
      rw [getEdge_eq_bottom L _ (by linarith)]
      intro h
      simp only [Option.some.injEq, Prod.mk.injEq] at h
      exact absurd h.1 (by decide)

/-- **C2, witness for the amended claim** at `L = 100`: `x = 30` maps to
`("bottom", 30)` and back to 30; `("bottom", 7)` round-trips; the valid
pair `("top", 5)` does not. -/
theorem mapper_roundTrip_amended_witness :
    ((0 : ℚ) ≤ 30 ∧ (0 : ℚ) ≤ 7 ∧ (0 : ℚ) < 100 ∧ (0 : ℚ) ≤ 5 ∧
      (5 : ℚ) < 100 / 4 ∧
      "top" ∈ (["right", "top", "left"] : List String)) ∧
    (getEdge 100 30).bind (fun es => getX 100 es.1 es.2) = some 30 ∧
    (getX 100 "bottom" 7).bind (fun y => getEdge 100 y) = some ("bottom", 7) ∧
    (getX 100 "top" 5).bind (fun y => getEdge 100 y) ≠
      some (("top", 5) : String × ℚ) :=
  ⟨⟨by decide, by decide, by decide, by decide, by norm_num, by decide⟩,
    mapper_roundTrip_amended.1 100 30 (by decide),
    mapper_roundTrip_amended.2.1 100 7 (by decide),
    mapper_roundTrip_amended.2.2 100 5 (by decide) (by decide) (by norm_num)
      "top" (by decide)⟩

/-- **C7, counterexample.**  The claim says the mapper fails with
`InvalidPosition` when an offset exceeds its edge's length or when `x ≥ L`,
returning no ordinary result on such inputs.  The code contains no such
check: with `L = 100` (edge length 25), `_getX "bottom" 999` returns the
ordinary result `999`, and `_getEdge 150` (`x ≥ L`) returns the ordinary
pair `("bottom", 150)`. -/
theorem mapper_no_validation_cex :
    getX 100 "bottom" 999 = some 999 ∧
    getEdge 100 150 = some ("bottom", 150) := by
  constructor
  · show some ((999 : ℚ) + 0) = some 999
    norm_num
  · exact getEdge_eq_bottom 100 150 (by norm_num)

/-- **C7, amended.**  The position mapper performs no validation and has no
`InvalidPosition` error: `_getX` returns `offset + start` for any offset,
however large (first conjunct, edge "bottom"); `_getEdge` returns the
ordinary pair `("bottom", x)` for every `x ≥ 0`, including every `x ≥ L`,
instead of failing (second conjunct); the only input on which `_getEdge`
fails — with `UnboundLocalError`, not `InvalidPosition` — is `x < 0`, where
no table entry matches (third conjunct). -/
theorem mapper_no_validation :
    (∀ L p : ℚ, getX L "bottom" p = some p) ∧
    (∀ L x : ℚ, 0 ≤ x → getEdge L x = some ("bottom", x)) ∧
    (∀ L x : ℚ, 0 < L → x < 0 → getEdge L x = none) := by
  refine ⟨?_, ?_, ?_⟩
  · intro L p
    show some (p + 0) = some p
    rw [add_zero]
  · exact getEdge_eq_bottom
  · intro L x hL hx
    have h4 : (0 : ℚ) < L / 4 := by linarith
    simp only [getEdge, edgestarts, List.foldl_cons, List.foldl_nil]
    rw [if_neg (by linarith), if_neg (by linarith), if_neg (by linarith),
      if_neg (by linarith)]

/-- **C7, witness for the amended claim** at `L = 100`. -/
theorem mapper_no_validation_witness :
    ((0 : ℚ) ≤ 150 ∧ (0 : ℚ) < 100 ∧ (-1 : ℚ) < 0) ∧
    getX 100 "bottom" 999 = some 999 ∧
    getEdge 100 150 = some ("bottom", 150) ∧
    getEdge 100 (-1) = none :=
  ⟨⟨by decide, by decide, by decide⟩,
    mapper_no_validation.1 100 999,
    mapper_no_validation.2.1 100 150 (by decide),
    mapper_no_validation.2.2 100 (-1) (by decide) (by decide)⟩

/-! ## Claim C8: type registration -/

/-- **C8, counterexample.**  The claim says `_addTypes` fails with
`UnknownParameterError` on an unrecognized parameter name and that the
recognized set includes the lane-change model selector.  In the code there
is no error path at all: on the repository's own `humanParams` — whose keys
include `"laneChangeModel"` — registration completes, applying exactly the
recognized names and silently dropping `"laneChangeModel"`, which is not a
`KNOWN_PARAMS` key. -/
theorem addTypes_silently_ignores :
    "laneChangeModel" ∈ humanParamNames ∧
    "laneChangeModel" ∉ KNOWN_PARAMS ∧
    addTypesApplied humanParamNames =
      ["maxSpeed", "accel", "decel", "speedFactor", "speedDev", "sigma",
        "tau"] := by
  refine ⟨by decide, by decide, by decide⟩

/-- **C8, amended.**  `_addTypes` never raises for an unrecognized
parameter name: it applies exactly the supplied names that are recognized
(`KNOWN_PARAMS` keys: maxSpeed, accel, decel, sigma, tau, speedFactor,
speedDev — the lane-change model selector is not among them) and silently
ignores all others, completing the registration. -/
theorem addTypes_applied_iff :
    ∀ (ps : List String) (p : String),
      p ∈ addTypesApplied ps ↔ p ∈ ps ∧ p ∈ KNOWN_PARAMS := by
  intro ps p
  rw [addTypesApplied, List.mem_filter]
  constructor
  · rintro ⟨h1, h2⟩
    exact ⟨h1, List.elem_iff.1 h2⟩
  · rintro ⟨h1, h2⟩
    exact ⟨h1, List.elem_iff.2 h2⟩

/-! ## Claims C9 and C10: vehicle placement -/

theorem length_placeCars (L nl N : ℕ) (cs : List CreatedCar) :
    ∀ i lane, (placeCars L nl N i lane cs).length = cs.length := by
  induction cs with
  | nil => intro i lane; rfl
  | cons c cs ih => intro i lane; simp [placeCars, ih]

/-- The enumeration index starts at `i` and increases by one per placed car,
so the placed positions are `L * j / N` for `j = i, i+1, …`. -/
theorem map_x_placeCars (L nl N : ℕ) (cs : List CreatedCar) :
    ∀ i lane, (placeCars L nl N i lane cs).map Placement.x =
      (List.range' i cs.length).map (fun j => L * j / N) := by
  induction cs with
  | nil => intro i lane; rfl
  | cons c cs ih =>
    intro i lane
    rw [List.length_cons, List.range'_succ]
    simp only [placeCars, List.map_cons, ih]

theorem map_name_placeCars (L nl N : ℕ) (cs : List CreatedCar) :
    ∀ i lane, (placeCars L nl N i lane cs).map Placement.carname =
      cs.map CreatedCar.carname := by
  induction cs with
  | nil => intro i lane; rfl
  | cons c cs ih => intro i lane; simp only [placeCars, List.map_cons, ih]

theorem getD_name_placeCars (L nl N : ℕ) (cs : List CreatedCar) :
    ∀ i lane j, j < cs.length →
      ((placeCars L nl N i lane cs).getD j dummyPlacement).carname =
        (cs.getD j dummyCreated).carname := by
  induction cs with
  | nil => intro i lane j hj; exact absurd hj (by simp)
  | cons c cs ih =>
    intro i lane j hj
    cases j with
    | zero => rfl
    | succ j => exact ih (i + 1) ((lane + 1) % nl) j (by simpa using hj)

/-- The rotating lane counter is advanced once per placed car regardless of
the car's own lane choice, so starting from counter value `l < nl` the car
at offset `j` sees counter value `(l + j) % nl`. -/
theorem lane_placeCars (L nl N : ℕ) (hnl : 0 < nl) (cs : List CreatedCar) :
    ∀ i l, l < nl → ∀ j, j < cs.length →
      ((placeCars L nl N i l cs).getD j dummyPlacement).lane =
        (match (cs.getD j dummyCreated).laneSpread with
          | .spread => (l + j) % nl
          | .fixed k => k) := by
  induction cs with
  | nil => intro i l hl j hj; exact absurd hj (by simp)
  | cons c cs ih =>
    intro i l hl j hj
    cases j with
    | zero =>
      simp only [placeCars, List.getD_cons_zero]
      cases c.laneSpread with
      | spread => show l = (l + 0) % nl; rw [Nat.add_zero, Nat.mod_eq_of_lt hl]
      | fixed k => rfl
    | succ j =>
      have h := ih (i + 1) ((l + 1) % nl) (Nat.mod_lt _ hnl) j
        (by simpa using hj)
      simp only [placeCars, List.getD_cons_succ]
      rw [h]
      cases (cs.getD j dummyCreated).laneSpread with
      | spread =>
        show ((l + 1) % nl + j) % nl = (l + (j + 1)) % nl
        rw [Nat.mod_add_mod]
        congr 1
        omega
      | fixed k => rfl

theorem createdCars_length (ps : List CarSpec) :
    (createdCars ps).length = numCarsOf ps := by
  have hfold : ∀ (l : List CarSpec) (a : ℕ),
      l.foldl (fun acc p => acc + p.count) a =
        a + (l.map CarSpec.count).sum := by
    intro l
    induction l with
    | nil => intro a; simp
    | cons p l ih => intro a; simp [ih]; omega
  rw [createdCars, numCarsOf, hfold, List.length_flatMap]
  simp [Function.comp_def, List.length_map, List.length_range]

/-- **C9.**  `_addCars` creates `N = Σ count` vehicles (the per-name dict
holding them is faithfully a list as long as the generated car names are
distinct, hypothesis `hnodup`), and for every permutation `shuffled`
produced by the random shuffle it places the vehicle at shuffled index `i`
at ring position `L * i / N` (Python 2 floor division) — every placement
index `0 … N−1` is used exactly once, in order; which vehicle identity
receives index `i` is exactly the shuffle's choice (third conjunct), and
every created vehicle is placed exactly once (second conjunct). -/
theorem addCars_places_evenly (L nl : ℕ) (ps : List CarSpec)
    (shuffled : List CreatedCar)
    (hperm : shuffled.Perm (createdCars ps))
    (hnodup : ((createdCars ps).map CreatedCar.carname).Nodup) :
    (addCars L nl ps shuffled).map Placement.x =
      (List.range (numCarsOf ps)).map (fun i => L * i / numCarsOf ps) ∧
    ((addCars L nl ps shuffled).map Placement.carname).Perm
      ((createdCars ps).map CreatedCar.carname) ∧
    ∀ i, i < shuffled.length →
      ((addCars L nl ps shuffled).getD i dummyPlacement).carname =
        (shuffled.getD i dummyCreated).carname := by
  have hlen : shuffled.length = numCarsOf ps := by
    rw [hperm.length_eq, createdCars_length]
  refine ⟨?_, ?_, ?_⟩
  · rw [addCars, map_x_placeCars, hlen, List.range_eq_range']
  · rw [addCars, map_name_placeCars]
    exact hperm.map _
  · intro i hi
    exact getD_name_placeCars L nl (numCarsOf ps) shuffled 0 0 i hi

/-- **C9, witness**: two types (counts 2 and 1) on a ring of length 300;
the shuffle that reverses the creation order places cars at 0, 100, 200. -/
theorem addCars_places_evenly_witness :
    (([⟨"robot-000", "robot", .fixed 0⟩, ⟨"human-001", "human", .spread⟩,
        ⟨"human-000", "human", .spread⟩] : List CreatedCar).Perm
      (createdCars [⟨"human", 2, .spread⟩, ⟨"robot", 1, .fixed 0⟩]) ∧
      ((createdCars [⟨"human", 2, .spread⟩,
        ⟨"robot", 1, .fixed 0⟩]).map CreatedCar.carname).Nodup) ∧
    (addCars 300 2 [⟨"human", 2, .spread⟩, ⟨"robot", 1, .fixed 0⟩]
        [⟨"robot-000", "robot", .fixed 0⟩, ⟨"human-001", "human", .spread⟩,
          ⟨"human-000", "human", .spread⟩]).map Placement.x =
      (List.range (numCarsOf [⟨"human", 2, .spread⟩, ⟨"robot", 1, .fixed 0⟩])).map
        (fun i => 300 * i /
          numCarsOf [⟨"human", 2, .spread⟩, ⟨"robot", 1, .fixed 0⟩]) :=
  ⟨⟨by decide, by decide⟩,
    (addCars_places_evenly 300 2 [⟨"human", 2, .spread⟩, ⟨"robot", 1, .fixed 0⟩]
      [⟨"robot-000", "robot", .fixed 0⟩, ⟨"human-001", "human", .spread⟩,
        ⟨"human-000", "human", .spread⟩] (by decide) (by decide)).1⟩

/-- **C10.**  The rotating lane counter of `_addCars` advances once per
placed vehicle whether or not that vehicle uses it: a vehicle with
`laneSpread = True` at shuffled index `i` always receives lane
`i % numLanes`, for every shuffled sequence — i.e. independently of how
many fixed-lane vehicles surround it — while a fixed-lane vehicle receives
its fixed lane. -/
theorem addCars_lane_roundrobin (L nl : ℕ) (ps : List CarSpec)
    (shuffled : List CreatedCar) (hnl : 0 < nl) (i : ℕ)
    (hi : i < shuffled.length) :
    ((shuffled.getD i dummyCreated).laneSpread = .spread →
      ((addCars L nl ps shuffled).getD i dummyPlacement).lane = i % nl) ∧
    (∀ k, (shuffled.getD i dummyCreated).laneSpread = .fixed k →
      ((addCars L nl ps shuffled).getD i dummyPlacement).lane = k) := by
  have h := lane_placeCars L nl (numCarsOf ps) hnl shuffled 0 0 hnl i hi
  constructor
  · intro hs
    rw [addCars, h, hs, Nat.zero_add]
  · intro k hs
    rw [addCars, h, hs]

/-- **C10, witness**: lanes 2; a spread vehicle at shuffled index 1 between
fixed-lane vehicles receives lane `1 % 2 = 1`, and the fixed-lane vehicle
at index 2 receives its fixed lane 0. -/
theorem addCars_lane_roundrobin_witness :
    ((0 : ℕ) < 2 ∧ (1 : ℕ) < ([⟨"a", "t", .fixed 0⟩, ⟨"b", "t", .spread⟩,
        ⟨"c", "t", .fixed 0⟩] : List CreatedCar).length ∧
      (([⟨"a", "t", .fixed 0⟩, ⟨"b", "t", .spread⟩, ⟨"c", "t", .fixed 0⟩] :
        List CreatedCar).getD 1 dummyCreated).laneSpread = .spread) ∧
    ((addCars 300 2 [] [⟨"a", "t", .fixed 0⟩, ⟨"b", "t", .spread⟩,
        ⟨"c", "t", .fixed 0⟩]).getD 1 dummyPlacement).lane = 1 % 2 :=
  ⟨⟨by decide, by decide, by decide⟩,
    (addCars_lane_roundrobin 300 2 [] [⟨"a", "t", .fixed 0⟩, ⟨"b", "t", .spread⟩,
      ⟨"c", "t", .fixed 0⟩] (by decide) 1 (by decide)).1 (by decide)⟩
